import Mathlib

/-!
# LibRational: the `rational<Integer>` value type

Shallow embedding of `src/LibRational/rational.h`.  The main model is over
unbounded integers (`Int`), i.e. the behaviour of the class template when no
intermediate value overflows `Integer`; the operations whose behaviour under
overflow or narrowing is studied also have a `w`-bit version (suffix `_w`).

* C++ integer division `a / b` truncates toward zero and is undefined for
  `b = 0`; it is embedded as `int_div`, which returns `none` on a zero divisor
  and `Int.tdiv a b` otherwise.
* `std::gcd(a, b)` is the greatest common divisor of `|a|` and `|b|`
  (with `gcd(0, 0) = 0`), embedded as `std_gcd`.
* `std::abs` is embedded as `std_abs`.
* An operation that reaches a division by zero evaluates to `none`.
-/

namespace LibRational

/-! ## Definitions -/

/-- Built-in integer division `a / b` of C++: truncation toward zero, with the
division by zero made explicit as `none`. -/
def int_div (a b : Int) : Option Int :=
  if b = 0 then none else some (Int.tdiv a b)

/-- The function `std::gcd`: greatest common divisor of the absolute values. -/
def std_gcd (a b : Int) : Int := (Int.gcd a b : Int)

/-- The function `std::abs` on integers. -/
def std_abs (a : Int) : Int := if a < 0 then -a else a

/-- A `rational<Integer>` object: the two private data members with their
default member initialisers `m_num = 0`, `m_den = 1`. -/
structure rational where
  m_num : Int := 0
  m_den : Int := 1
  deriving DecidableEq, Repr

namespace rational

/-- The private static member `common_sign`. -/
def common_sign (a b : Int) : Int :=
  if a = 0 ∨ b = 0 then 0
  else if (a > 0 ∧ b > 0) ∨ (a < 0 ∧ b < 0) then 1
  else -1

/-- The defaulted constructor `rational()`. -/
def default_ctor : rational := {}

/-- The converting constructor `rational(integer_type n)`. -/
def from_integer (n : Int) : rational := { m_num := n, m_den := 1 }

/-- The pair constructor `rational(integer_type num, integer_type den)`:
`m_num{ common_sign(num, den) * std::abs(num / std::gcd(num, den)) }`,
`m_den{ std::abs(den / std::gcd(num, den)) }`, over unbounded integers (no
overflow); `from_pair_w` is the same constructor in a `w`-bit type. -/
def from_pair (num den : Int) : Option rational :=
  match int_div num (std_gcd num den), int_div den (std_gcd num den) with
  | some qn, some qd =>
      some { m_num := common_sign num den * std_abs qn, m_den := std_abs qd }
  | _, _ => none

/-- Binary `operator+`. -/
def operator_plus (a b : rational) : Option rational :=
  from_pair (a.m_num * b.m_den + b.m_num * a.m_den) (a.m_den * b.m_den)

/-- Binary `operator-`. -/
def operator_minus (a b : rational) : Option rational :=
  from_pair (a.m_num * b.m_den - b.m_num * a.m_den) (a.m_den * b.m_den)

/-- Binary `operator*`. -/
def operator_times (a b : rational) : Option rational :=
  from_pair (a.m_num * b.m_num) (a.m_den * b.m_den)

/-- Binary `operator/`. -/
def operator_divide (a b : rational) : Option rational :=
  from_pair (a.m_num * b.m_den) (a.m_den * b.m_num)

/-- The comparison `operator==`. -/
def operator_eq (a b : rational) : Bool :=
  (a.m_num == b.m_num) && (a.m_den == b.m_den)

/-- The comparison `operator!=`. -/
def operator_ne (a b : rational) : Bool := !(operator_eq a b)

/-- The comparison `operator<`. -/
def operator_lt (a b : rational) : Bool :=
  decide (a.m_num * b.m_den < b.m_num * a.m_den)

/-- The comparison `operator>=`. -/
def operator_ge (a b : rational) : Bool := !(operator_lt a b)

/-- The comparison `operator>`. -/
def operator_gt (a b : rational) : Bool := operator_lt b a

/-- The comparison `operator<=`. -/
def operator_le (a b : rational) : Bool := !(operator_gt a b)

/-- Unary `operator+`. -/
def unary_plus (a : rational) : rational := a

/-- Unary `operator-`. -/
def unary_minus (a : rational) : Option rational :=
  from_pair (-a.m_num) a.m_den

/-- The normal-form predicate on a stored pair: positive denominator,
numerator and denominator coprime, and zero stored as `(0, 1)`. -/
def NormalForm (r : rational) : Prop :=
  1 ≤ r.m_den ∧ Int.gcd |r.m_num| r.m_den = 1 ∧ (r.m_num = 0 → r.m_den = 1)

instance (r : rational) : Decidable (NormalForm r) := by
  unfold NormalForm; infer_instance

/-- The mathematical rational number denoted by a stored pair. -/
def val (r : rational) : ℚ := (r.m_num : ℚ) / (r.m_den : ℚ)

end rational

/-! ## Fixed-width instantiations

The class template instantiated over a signed integer type of `w` bits, with
two's-complement wraparound: every value stored in, or converted to, such a
type is reduced modulo `2 ^ w` into `[-2 ^ (w - 1), 2 ^ (w - 1))`.  The
comparison `operator_lt_w` describes types that are not promoted in
arithmetic (`w ≥ 32`), where both cross products are computed in the type
itself. -/

/-- Reduction of an integer to the signed type of `w` bits (the result of
`static_cast`, and of an arithmetic operation that wraps around). -/
def wrap (w : Nat) (x : Int) : Int := (x + 2 ^ (w - 1)) % 2 ^ w - 2 ^ (w - 1)

/-- The values of the signed integer type of `w` bits. -/
def representable (w : Nat) (x : Int) : Prop := -(2 ^ (w - 1)) ≤ x ∧ x < 2 ^ (w - 1)

instance (w : Nat) (x : Int) : Decidable (representable w x) := by
  unfold representable; infer_instance

namespace rational

/-- The pair constructor of `rational<I>` for `I` of `w` bits. -/
def from_pair_w (w : Nat) (num den : Int) : Option rational :=
  match int_div num (wrap w (std_gcd num den)), int_div den (wrap w (std_gcd num den)) with
  | some qn, some qd =>
      some { m_num := wrap w (common_sign num den * wrap w (std_abs (wrap w qn))),
             m_den := wrap w (std_abs (wrap w qd)) }
  | _, _ => none

/-- Binary `operator+` of `rational<I>` for `I` of `w` bits. -/
def operator_plus_w (w : Nat) (a b : rational) : Option rational :=
  from_pair_w w (wrap w (wrap w (a.m_num * b.m_den) + wrap w (b.m_num * a.m_den)))
    (wrap w (a.m_den * b.m_den))

/-- Binary `operator*` of `rational<I>` for `I` of `w` bits. -/
def operator_times_w (w : Nat) (a b : rational) : Option rational :=
  from_pair_w w (wrap w (a.m_num * b.m_num)) (wrap w (a.m_den * b.m_den))

/-- Binary `operator/` of `rational<I>` for `I` of `w` bits. -/
def operator_divide_w (w : Nat) (a b : rational) : Option rational :=
  from_pair_w w (wrap w (a.m_num * b.m_den)) (wrap w (a.m_den * b.m_num))

/-- The comparison `operator<` of `rational<I>` for `I` of `w` bits. -/
def operator_lt_w (w : Nat) (a b : rational) : Bool :=
  decide (wrap w (a.m_num * b.m_den) < wrap w (b.m_num * a.m_den))

/-- The conversion `operator rational<ToInteger>()` to a `ToInteger` of `w`
bits: `rational<ToInteger>{ static_cast<ToInteger>(m_num),
static_cast<ToInteger>(m_den) }`. -/
def operator_rational (w : Nat) (q : rational) : Option rational :=
  from_pair_w w (wrap w q.m_num) (wrap w q.m_den)

/-- The conversion `operator To()` to a signed integer type `To` of `w` bits:
`static_cast<To>(m_num) / static_cast<To>(m_den)`. -/
def operator_To (w : Nat) (q : rational) : Option Int :=
  match int_div (wrap w q.m_num) (wrap w q.m_den) with
  | some r => some (wrap w r)
  | none => none

end rational

/-! ## Auxiliary lemmas -/

open rational

theorem std_abs_eq_abs (a : Int) : std_abs a = |a| := by
  unfold std_abs
  split_ifs with h
  · exact (abs_of_neg h).symm
  · exact (abs_of_nonneg (not_lt.mp h)).symm

theorem common_sign_eq_sign (a b : Int) : common_sign a b = Int.sign a * Int.sign b := by
  unfold common_sign
  rcases lt_trichotomy a 0 with ha | ha | ha <;> rcases lt_trichotomy b 0 with hb | hb | hb
  all_goals first
    | (subst ha; simp)
    | (subst hb; simp)
    | skip
  all_goals
    simp [Int.sign_eq_one_of_pos, Int.sign_eq_neg_one_of_neg, ha, hb, ha.ne, hb.ne, ha.ne',
      hb.ne', ha.le, hb.le, not_lt.mpr ha.le, not_lt.mpr hb.le]

theorem norm_aux (g p' q' : Int) (hg : 0 < g) (hq' : q' ≠ 0) :
    common_sign (g * p') (g * q') * std_abs ((g * p').tdiv g)
        = Int.sign (g * q') * ((g * p') / g)
      ∧ std_abs ((g * q').tdiv g) = Int.sign (g * q') * ((g * q') / g) := by
  have hg0 : g ≠ 0 := hg.ne'
  rw [Int.tdiv_eq_ediv_of_dvd (Dvd.intro _ rfl), Int.tdiv_eq_ediv_of_dvd (Dvd.intro _ rfl),
    Int.mul_ediv_cancel_left _ hg0, Int.mul_ediv_cancel_left _ hg0, common_sign_eq_sign,
    std_abs_eq_abs, std_abs_eq_abs, Int.sign_mul, Int.sign_mul, Int.sign_eq_one_of_pos hg]
  constructor
  · calc 1 * Int.sign p' * (1 * Int.sign q') * |p'|
        = Int.sign q' * (Int.sign p' * |p'|) := by ring
      _ = 1 * Int.sign q' * p' := by rw [Int.sign_mul_abs]; ring
  · rcases lt_or_gt_of_ne hq' with h | h
    · rw [Int.sign_eq_neg_one_of_neg h, abs_of_neg h]; ring
    · rw [Int.sign_eq_one_of_pos h, abs_of_pos h]; ring

/-- Closed form of the pair constructor for a non-zero denominator. -/
theorem from_pair_some (p q : Int) (hq : q ≠ 0) :
    from_pair p q = some
      { m_num := Int.sign q * (p / (Int.gcd p q : Int)),
        m_den := Int.sign q * (q / (Int.gcd p q : Int)) } := by
  have hgpos : 0 < (Int.gcd p q : Int) := by
    have : 0 < Int.gcd p q := Int.gcd_pos_of_ne_zero_right p hq
    exact_mod_cast this
  obtain ⟨p', hp⟩ := Int.gcd_dvd_left (a := p) (b := q)
  obtain ⟨q', hq'⟩ := Int.gcd_dvd_right (a := p) (b := q)
  have hq'0 : q' ≠ 0 := by
    rintro rfl
    exact hq (by simpa using hq')
  have key := norm_aux (Int.gcd p q : Int) p' q' hgpos hq'0
  rw [← hp, ← hq'] at key
  unfold from_pair int_div std_gcd
  simp only [hgpos.ne', if_false]
  rw [key.1, key.2]

/-- For a non-zero denominator the pair constructor returns a pair in normal
form that denotes the same fraction as its arguments. -/
theorem from_pair_spec (p q : Int) (hq : q ≠ 0) :
    ∃ r, from_pair p q = some r ∧ NormalForm r ∧ r.m_num * q = p * r.m_den := by
  refine ⟨_, from_pair_some p q hq, ?_, ?_⟩
  · have hgpos : 0 < Int.gcd p q := Int.gcd_pos_of_ne_zero_right p hq
    have hcop : Int.gcd (p / (Int.gcd p q : Int)) (q / (Int.gcd p q : Int)) = 1 :=
      Int.gcd_div_gcd_div_gcd hgpos
    have hs : (Int.sign q).natAbs = 1 := Int.natAbs_sign_of_nonzero hq
    have hd : q / (Int.gcd p q : Int) ≠ 0 := by
      intro h0
      exact hq (Int.eq_zero_of_ediv_eq_zero Int.gcd_dvd_right h0)
    have hden : 1 ≤ Int.sign q * (q / (Int.gcd p q : Int)) := by
      have hq2 : q / (Int.gcd p q : Int) * (Int.gcd p q : Int) = q :=
        Int.ediv_mul_cancel Int.gcd_dvd_right
      have hgi : (0 : Int) < (Int.gcd p q : Int) := by exact_mod_cast hgpos
      rcases lt_or_gt_of_ne hq with h | h
      · rw [Int.sign_eq_neg_one_of_neg h]
        have : q / (Int.gcd p q : Int) < 0 := by
          by_contra hc
          have := mul_nonneg (not_lt.mp hc) hgi.le
          omega
        omega
      · rw [Int.sign_eq_one_of_pos h]
        have : 0 < q / (Int.gcd p q : Int) := by
          by_contra hc
          have := mul_nonpos_of_nonpos_of_nonneg (not_lt.mp hc) hgi.le
          omega
        omega
    have hg1 : Int.gcd |Int.sign q * (p / (Int.gcd p q : Int))|
        (Int.sign q * (q / (Int.gcd p q : Int))) = 1 := by
      unfold Int.gcd at hcop ⊢
      rw [Int.natAbs_abs, Int.natAbs_mul, Int.natAbs_mul, hs, one_mul, one_mul]
      exact hcop
    refine ⟨hden, hg1, ?_⟩
    intro hn
    simp only [] at hn hg1 hden ⊢
    rw [hn] at hg1
    simp at hg1
    omega
  · have h1 : p / (Int.gcd p q : Int) * (Int.gcd p q : Int) = p :=
      Int.ediv_mul_cancel Int.gcd_dvd_left
    have h2 : q / (Int.gcd p q : Int) * (Int.gcd p q : Int) = q :=
      Int.ediv_mul_cancel Int.gcd_dvd_right
    show Int.sign q * (p / (Int.gcd p q : Int)) * q
      = p * (Int.sign q * (q / (Int.gcd p q : Int)))
    generalize p / (Int.gcd p q : Int) = a at h1 ⊢
    generalize q / (Int.gcd p q : Int) = b at h2 ⊢
    generalize Int.sign q = s
    linear_combination (-(s * a)) * h2 + (s * b) * h1

/-- A pair in normal form is the reduced fraction of the number it denotes. -/
theorem normal_num_den (a : rational) (ha : NormalForm a) :
    (val a).num = a.m_num ∧ ((val a).den : Int) = a.m_den := by
  obtain ⟨hd, hg, _⟩ := ha
  have hcop : Nat.Coprime a.m_num.natAbs a.m_den.natAbs := by
    unfold Int.gcd at hg
    rwa [Int.natAbs_abs] at hg
  have hpos : 0 < a.m_den := by omega
  exact ⟨Rat.num_div_eq_of_coprime hpos hcop, Rat.den_div_eq_of_coprime hpos hcop⟩

/-- Two pairs in normal form that denote the same number are the same pair. -/
theorem normal_eq_of_val_eq (a b : rational) (ha : NormalForm a) (hb : NormalForm b)
    (h : val a = val b) : a = b := by
  obtain ⟨ha1, ha2⟩ := normal_num_den a ha
  obtain ⟨hb1, hb2⟩ := normal_num_den b hb
  rw [h] at ha1 ha2
  cases a
  cases b
  simp only [rational.mk.injEq]
  exact ⟨ha1.symm.trans hb1, ha2.symm.trans hb2⟩

/-- Equality of denoted values is equality of cross products. -/
theorem val_eq_iff (a b : rational) (ha : a.m_den ≠ 0) (hb : b.m_den ≠ 0) :
    val a = val b ↔ a.m_num * b.m_den = b.m_num * a.m_den := by
  have ha' : (a.m_den : ℚ) ≠ 0 := by exact_mod_cast ha
  have hb' : (b.m_den : ℚ) ≠ 0 := by exact_mod_cast hb
  unfold val
  rw [div_eq_div_iff ha' hb']
  norm_cast

/-- Order of denoted values is order of cross products, for positive
denominators. -/
theorem val_lt_iff (a b : rational) (ha : 0 < a.m_den) (hb : 0 < b.m_den) :
    val a < val b ↔ a.m_num * b.m_den < b.m_num * a.m_den := by
  have ha' : (0 : ℚ) < (a.m_den : ℚ) := by exact_mod_cast ha
  have hb' : (0 : ℚ) < (b.m_den : ℚ) := by exact_mod_cast hb
  unfold val
  rw [div_lt_div_iff₀ ha' hb']
  norm_cast

/-- The pair constructor returns a normal-form pair denoting `p / q`. -/
theorem from_pair_val (p q : Int) (hq : q ≠ 0) :
    ∃ r, from_pair p q = some r ∧ NormalForm r ∧ val r = (p : ℚ) / (q : ℚ) := by
  obtain ⟨r, hr, hn, hx⟩ := from_pair_spec p q hq
  refine ⟨r, hr, hn, ?_⟩
  have hd : (r.m_den : ℚ) ≠ 0 := by
    have := hn.1
    have : r.m_den ≠ 0 := by omega
    exact_mod_cast this
  have hq' : (q : ℚ) ≠ 0 := by exact_mod_cast hq
  unfold val
  rw [div_eq_div_iff hd hq']
  exact_mod_cast hx

/-- The pair constructor is the identity on pairs already in normal form. -/
theorem from_pair_normal (a : rational) (ha : NormalForm a) :
    from_pair a.m_num a.m_den = some a := by
  have hd : a.m_den ≠ 0 := by
    have := ha.1
    omega
  obtain ⟨r, hr, hn, hv⟩ := from_pair_val a.m_num a.m_den hd
  rw [hr, normal_eq_of_val_eq r a hn ha hv]

/-- A normal-form pair different from `rational(0)` has a non-zero numerator. -/
theorem num_ne_zero_of_ne_zero (b : rational) (hb : NormalForm b)
    (hne : operator_ne b (from_integer 0) = true) : b.m_num ≠ 0 := by
  intro h0
  have hd := hb.2.2 h0
  simp [operator_ne, operator_eq, from_integer, h0, hd] at hne

/-- The operator `==` holds exactly when the two stored pairs coincide. -/
theorem operator_eq_iff (a b : rational) : operator_eq a b = true ↔ a = b := by
  cases a
  cases b
  simp [operator_eq]

/-- The operator `<` computes the order of the denoted values when both
denominators are positive. -/
theorem operator_lt_iff_val (a b : rational) (ha : 0 < a.m_den) (hb : 0 < b.m_den) :
    operator_lt a b = true ↔ val a < val b := by
  rw [val_lt_iff a b ha hb]
  simp [operator_lt]

/-- The operator `+` on normal-form operands returns a normal-form pair that
denotes the sum. -/
theorem operator_plus_val (a b : rational) (ha : NormalForm a) (hb : NormalForm b) :
    ∃ r, operator_plus a b = some r ∧ NormalForm r ∧ val r = val a + val b := by
  have had : a.m_den ≠ 0 := by
    have := ha.1
    omega
  have hbd : b.m_den ≠ 0 := by
    have := hb.1
    omega
  have had' : (a.m_den : ℚ) ≠ 0 := by exact_mod_cast had
  have hbd' : (b.m_den : ℚ) ≠ 0 := by exact_mod_cast hbd
  obtain ⟨r, hr, hn, hv⟩ := from_pair_val (a.m_num * b.m_den + b.m_num * a.m_den)
    (a.m_den * b.m_den) (mul_ne_zero had hbd)
  refine ⟨r, hr, hn, ?_⟩
  rw [hv]
  unfold val
  push_cast
  field_simp

/-- The operator `*` on normal-form operands returns a normal-form pair that
denotes the product. -/
theorem operator_times_val (a b : rational) (ha : NormalForm a) (hb : NormalForm b) :
    ∃ r, operator_times a b = some r ∧ NormalForm r ∧ val r = val a * val b := by
  have had : a.m_den ≠ 0 := by
    have := ha.1
    omega
  have hbd : b.m_den ≠ 0 := by
    have := hb.1
    omega
  have had' : (a.m_den : ℚ) ≠ 0 := by exact_mod_cast had
  have hbd' : (b.m_den : ℚ) ≠ 0 := by exact_mod_cast hbd
  obtain ⟨r, hr, hn, hv⟩ := from_pair_val (a.m_num * b.m_num)
    (a.m_den * b.m_den) (mul_ne_zero had hbd)
  refine ⟨r, hr, hn, ?_⟩
  rw [hv]
  unfold val
  push_cast
  field_simp

/-- Unary `-` on a normal-form operand returns a normal-form pair that denotes
the negation. -/
theorem unary_minus_val (a : rational) (ha : NormalForm a) :
    ∃ r, unary_minus a = some r ∧ NormalForm r ∧ val r = -val a := by
  have had : a.m_den ≠ 0 := by
    have := ha.1
    omega
  obtain ⟨r, hr, hn, hv⟩ := from_pair_val (-a.m_num) a.m_den had
  refine ⟨r, hr, hn, ?_⟩
  rw [hv]
  unfold val
  push_cast
  ring

/-- The operator `/` with a normal-form dividend and a normal-form divisor of
non-zero numerator returns a normal-form pair that denotes the quotient. -/
theorem operator_divide_val (a b : rational) (ha : NormalForm a) (hb : NormalForm b)
    (hbn : b.m_num ≠ 0) :
    ∃ r, operator_divide a b = some r ∧ NormalForm r ∧ val r = val a / val b := by
  have had : a.m_den ≠ 0 := by
    have := ha.1
    omega
  have hbd : b.m_den ≠ 0 := by
    have := hb.1
    omega
  have had' : (a.m_den : ℚ) ≠ 0 := by exact_mod_cast had
  have hbd' : (b.m_den : ℚ) ≠ 0 := by exact_mod_cast hbd
  have hbn' : (b.m_num : ℚ) ≠ 0 := by exact_mod_cast hbn
  obtain ⟨r, hr, hn, hv⟩ :=
    from_pair_val (a.m_num * b.m_den) (a.m_den * b.m_num) (mul_ne_zero had hbn)
  refine ⟨r, hr, hn, ?_⟩
  rw [hv]
  unfold val
  push_cast
  field_simp

/-- Normal-form pairs of equal value are equal under `operator==`. -/
theorem operator_eq_of_val_eq (x y : rational) (hx : NormalForm x) (hy : NormalForm y)
    (h : val x = val y) : operator_eq x y = true :=
  (operator_eq_iff x y).mpr (normal_eq_of_val_eq x y hx hy h)

/-- The pairs stored by `rational(n)` are in normal form and denote `n`. -/
theorem from_integer_normal (n : Int) :
    NormalForm (from_integer n) ∧ val (from_integer n) = (n : ℚ) := by
  refine ⟨⟨le_refl _, ?_, fun _ => rfl⟩, ?_⟩
  · simp [from_integer]
  · simp [val, from_integer]

/-- With a zero denominator and a non-zero numerator no division by zero is
reached, and the stored pair is `(0, 0)`. -/
theorem from_pair_zero_den (p : Int) (hp : p ≠ 0) :
    from_pair p 0 = some { m_num := 0, m_den := 0 } := by
  have hg : (Int.gcd p 0 : Int) ≠ 0 := by
    simpa using hp
  unfold from_pair int_div std_gcd
  simp only [hg, if_false]
  simp [common_sign, std_abs]

/-- The pair constructor reaches a division by zero exactly when both of its
arguments are zero. -/
theorem from_pair_eq_none_iff (p q : Int) : from_pair p q = none ↔ p = 0 ∧ q = 0 := by
  constructor
  · intro h
    by_contra hc
    by_cases hq : q = 0
    · have hp : p ≠ 0 := fun hp => hc ⟨hp, hq⟩
      rw [hq, from_pair_zero_den p hp] at h
      exact Option.noConfusion h
    · rw [from_pair_some p q hq] at h
      exact Option.noConfusion h
  · rintro ⟨rfl, rfl⟩
    decide

/-- Pairs with equal cross products and non-zero denominators are stored
identically by the pair constructor. -/
theorem from_pair_congr (p1 q1 p2 q2 : Int) (h1 : q1 ≠ 0) (h2 : q2 ≠ 0)
    (h : p1 * q2 = p2 * q1) : from_pair p1 q1 = from_pair p2 q2 := by
  obtain ⟨r1, hr1, hn1, hv1⟩ := from_pair_val p1 q1 h1
  obtain ⟨r2, hr2, hn2, hv2⟩ := from_pair_val p2 q2 h2
  have hq1 : (q1 : ℚ) ≠ 0 := by exact_mod_cast h1
  have hq2 : (q2 : ℚ) ≠ 0 := by exact_mod_cast h2
  have hv : val r1 = val r2 := by
    rw [hv1, hv2, div_eq_div_iff hq1 hq2]
    exact_mod_cast h
  rw [hr1, hr2, normal_eq_of_val_eq r1 r2 hn1 hn2 hv]

/-- The sign of the numerator stored by the pair constructor. -/
theorem from_pair_sign (p q : Int) (hq : q ≠ 0) (r : rational) (hr : from_pair p q = some r) :
    Int.sign r.m_num = common_sign p q := by
  obtain ⟨r', hr', hn, hx⟩ := from_pair_spec p q hq
  rw [hr] at hr'
  cases hr'
  have hd : Int.sign r.m_den = 1 := Int.sign_eq_one_of_pos (by have := hn.1; omega)
  have hs : Int.sign r.m_num * Int.sign q = Int.sign p := by
    rw [← Int.sign_mul, hx, Int.sign_mul, hd, mul_one]
  have hqq : Int.sign q * Int.sign q = 1 := by
    rcases lt_or_gt_of_ne hq with h | h
    · rw [Int.sign_eq_neg_one_of_neg h]; rfl
    · rw [Int.sign_eq_one_of_pos h]; rfl
  rw [common_sign_eq_sign, ← hs, mul_assoc, hqq, mul_one]

theorem two_pow_pred (w : Nat) (hw : 1 ≤ w) : (2 : Int) ^ w = 2 * 2 ^ (w - 1) := by
  obtain ⟨k, rfl⟩ : ∃ k, w = k + 1 := ⟨w - 1, by omega⟩
  simp [pow_succ, mul_comm]

/-- Reduction to `w` bits leaves the values of the type unchanged. -/
theorem wrap_of_representable (w : Nat) (hw : 1 ≤ w) (x : Int) (hx : representable w x) :
    wrap w x = x := by
  obtain ⟨h1, h2⟩ := hx
  have h2w := two_pow_pred w hw
  unfold wrap
  rw [Int.emod_eq_of_lt (by omega) (by omega)]
  omega

/-- Reduction to `w` bits yields a value of the type. -/
theorem representable_wrap (w : Nat) (hw : 1 ≤ w) (x : Int) : representable w (wrap w x) := by
  have h2w := two_pow_pred w hw
  have hpos : (0 : Int) < 2 ^ w := by positivity
  have h1 := Int.emod_nonneg (x + 2 ^ (w - 1)) hpos.ne'
  have h2 := Int.emod_lt_of_pos (x + 2 ^ (w - 1)) hpos
  unfold representable wrap
  constructor <;> omega

/-- Reduction to `w` bits changes a value by a multiple of `2 ^ w`. -/
theorem wrap_modEq (w : Nat) (x : Int) : (2 : Int) ^ w ∣ x - wrap w x := by
  unfold wrap
  have h := Int.emod_add_ediv (x + 2 ^ (w - 1)) (2 ^ w)
  refine ⟨(x + 2 ^ (w - 1)) / 2 ^ w, ?_⟩
  linear_combination -h

/-- A value of a `wI`-bit type and its absolute value are values of every
wider type. -/
theorem representable_widen (wI wJ : Nat) (hI : 1 ≤ wI) (hJ : wI < wJ) (x : Int)
    (hx : representable wI x) : representable wJ x ∧ representable wJ |x| := by
  obtain ⟨h1, h2⟩ := hx
  have hlt : (2 : Int) ^ (wI - 1) < 2 ^ (wJ - 1) := by
    have : (2 : Nat) ^ (wI - 1) < 2 ^ (wJ - 1) :=
      Nat.pow_lt_pow_right (by norm_num) (by omega)
    exact_mod_cast this
  have hpos : (0 : Int) < 2 ^ (wI - 1) := by positivity
  unfold representable
  refine ⟨⟨by omega, by omega⟩, ?_, ?_⟩
  · have := abs_nonneg x
    omega
  · rcases abs_cases x with ⟨h, _⟩ | ⟨h, _⟩ <;> omega

/-- The `w`-bit pair constructor is the identity on a normal-form pair whose
components, and the absolute value of whose numerator, are values of the type. -/
theorem from_pair_w_normal (w : Nat) (hw : 2 ≤ w) (q : rational) (hq : NormalForm q)
    (hn : representable w q.m_num) (ha : representable w |q.m_num|)
    (hd : representable w q.m_den) :
    from_pair_w w q.m_num q.m_den = some q := by
  obtain ⟨hd1, hg, _⟩ := hq
  have hw1 : 1 ≤ w := by omega
  have hgcd : std_gcd q.m_num q.m_den = 1 := by
    unfold Int.gcd at hg
    rw [Int.natAbs_abs] at hg
    unfold std_gcd Int.gcd
    rw [hg]
    rfl
  have hone : wrap w 1 = 1 := by
    apply wrap_of_representable w hw1
    have h2w := two_pow_pred (w - 1) (by omega)
    have hpos : (0 : Int) < 2 ^ (w - 1 - 1) := by positivity
    unfold representable
    constructor <;> omega
  have hsd : Int.sign q.m_den = 1 := Int.sign_eq_one_of_pos (by omega)
  have hnum : common_sign q.m_num q.m_den * |q.m_num| = q.m_num := by
    rw [common_sign_eq_sign, hsd, mul_one, Int.sign_mul_abs]
  have hden : |q.m_den| = q.m_den := abs_of_nonneg (by omega)
  unfold from_pair_w int_div
  rw [hgcd, hone]
  simp only [one_ne_zero, if_false, Int.tdiv_one]
  rw [wrap_of_representable w hw1 _ hn, wrap_of_representable w hw1 _ hd, std_abs_eq_abs,
    std_abs_eq_abs, wrap_of_representable w hw1 _ ha, hnum, hden,
    wrap_of_representable w hw1 _ hn, wrap_of_representable w hw1 _ hd]

/-- Truncating division by a positive divisor is the floor of the quotient
for a non-negative dividend and its ceiling for a negative dividend. -/
theorem tdiv_floor_ceil (n : Int) (k : Nat) :
    (0 ≤ n → n.tdiv (k : Int) = ⌊(n : ℚ) / (k : ℚ)⌋) ∧
    (n < 0 → n.tdiv (k : Int) = ⌈(n : ℚ) / (k : ℚ)⌉) := by
  constructor
  · intro hn
    rw [Rat.floor_intCast_div_natCast, Int.tdiv_eq_ediv hn (Int.ofNat_nonneg k)]
  · intro hn
    have h1 : (n : ℚ) / (k : ℚ) = -(((-n : Int) : ℚ) / (k : ℚ)) := by
      push_cast
      ring
    rw [h1, Int.ceil_neg, Rat.floor_intCast_div_natCast, ← Int.neg_neg n, Int.neg_tdiv,
      Int.tdiv_eq_ediv (by omega) (Int.ofNat_nonneg k), Int.neg_neg]

/-- The truncated quotient by a positive divisor lies between the dividend and
zero. -/
theorem tdiv_representable (w : Nat) (n d : Int) (hd : 1 ≤ d) (hn : representable w n) :
    representable w (n.tdiv d) := by
  obtain ⟨h1, h2⟩ := hn
  have hpos : (0 : Int) < 2 ^ (w - 1) := by positivity
  unfold representable
  rcases lt_or_le n 0 with h | h
  · have e : n.tdiv d = -((-n) / d) := by
      rw [← Int.tdiv_eq_ediv (by omega) (by omega), Int.neg_tdiv, Int.neg_neg]
    have a1 : 0 ≤ (-n) / d := Int.ediv_nonneg (by omega) (by omega)
    have a2 : (-n) / d ≤ -n := Int.ediv_le_self d (by omega)
    rw [e]
    constructor <;> omega
  · have e : n.tdiv d = n / d := Int.tdiv_eq_ediv h (by omega)
    have a1 : 0 ≤ n / d := Int.ediv_nonneg h (by omega)
    have a2 : n / d ≤ n := Int.ediv_le_self d h
    rw [e]
    constructor <;> omega

/-- The sign returned by `common_sign` is `-1`, `0` or `1`. -/
theorem abs_common_sign_le (a b : Int) : |common_sign a b| ≤ 1 := by
  unfold common_sign
  split_ifs <;> simp

/-- Truncating division does not increase the absolute value. -/
theorem abs_tdiv_le (a b : Int) : |a.tdiv b| ≤ |a| := by
  rw [Int.abs_eq_natAbs, Int.abs_eq_natAbs, Int.natAbs_tdiv]
  exact_mod_cast Nat.div_le_self _ _

/-- The greatest common divisor is bounded by the larger absolute value. -/
theorem std_gcd_le (p q : Int) : |std_gcd p q| ≤ max |p| |q| := by
  unfold std_gcd
  rw [abs_of_nonneg (Int.ofNat_nonneg _), Int.abs_eq_natAbs, Int.abs_eq_natAbs]
  unfold Int.gcd
  rcases Nat.eq_zero_or_pos p.natAbs with h | h
  · rw [h, Nat.gcd_zero_left]
    exact le_max_right _ _
  · exact le_trans (by exact_mod_cast Nat.gcd_le_left _ h) (le_max_left _ _)

/-- Reduction to `w` bits leaves a value unchanged when its absolute value is
below `2 ^ (w - 1)`. -/
theorem wrap_of_abs_lt (w : Nat) (hw : 1 ≤ w) (x : Int) (hx : |x| < 2 ^ (w - 1)) :
    wrap w x = x := by
  apply wrap_of_representable w hw
  have h1 := neg_abs_le x
  have h2 := le_abs_self x
  unfold representable
  constructor <;> omega

/-- Without overflow the `w`-bit pair constructor computes what the constructor
over unbounded integers computes: this is the case whenever both arguments have
an absolute value below `2 ^ (w - 1)`. -/
theorem from_pair_w_eq_from_pair (w : Nat) (hw : 1 ≤ w) (p q : Int)
    (hp : |p| < 2 ^ (w - 1)) (hq : |q| < 2 ^ (w - 1)) :
    from_pair_w w p q = from_pair p q := by
  have hg : |std_gcd p q| < 2 ^ (w - 1) :=
    lt_of_le_of_lt (std_gcd_le p q) (max_lt hp hq)
  have hcs := abs_common_sign_le p q
  have hmul : ∀ x : Int, |x| < 2 ^ (w - 1) → |common_sign p q * (|x|)| < 2 ^ (w - 1) := by
    intro x hx
    rw [abs_mul, abs_abs]
    have h0 := abs_nonneg x
    have : |common_sign p q| * |x| ≤ 1 * |x| := mul_le_mul_of_nonneg_right hcs h0
    omega
  have hn : |p.tdiv (std_gcd p q)| < 2 ^ (w - 1) := lt_of_le_of_lt (abs_tdiv_le _ _) hp
  have hd : |q.tdiv (std_gcd p q)| < 2 ^ (w - 1) := lt_of_le_of_lt (abs_tdiv_le _ _) hq
  unfold from_pair_w from_pair
  rw [wrap_of_abs_lt w hw _ hg]
  unfold int_div
  by_cases h0 : std_gcd p q = 0
  · simp only [h0, if_true]
  · simp only [h0, if_false]
    have hn' : |(|p.tdiv (std_gcd p q)|)| < 2 ^ (w - 1) := by rwa [abs_abs]
    have hd' : |(|q.tdiv (std_gcd p q)|)| < 2 ^ (w - 1) := by rwa [abs_abs]
    rw [wrap_of_abs_lt w hw (p.tdiv (std_gcd p q)) hn,
      wrap_of_abs_lt w hw (q.tdiv (std_gcd p q)) hd, std_abs_eq_abs, std_abs_eq_abs,
      wrap_of_abs_lt w hw (|p.tdiv (std_gcd p q)|) hn',
      wrap_of_abs_lt w hw (|q.tdiv (std_gcd p q)|) hd',
      wrap_of_abs_lt w hw (common_sign p q * (|p.tdiv (std_gcd p q)|)) (hmul _ hn)]

/-- Without overflow of the two products the `w`-bit operator `/` computes what
the operator over unbounded integers computes. -/
theorem operator_divide_w_eq (w : Nat) (hw : 1 ≤ w) (a b : rational)
    (h1 : |a.m_num * b.m_den| < 2 ^ (w - 1)) (h2 : |a.m_den * b.m_num| < 2 ^ (w - 1)) :
    operator_divide_w w a b = operator_divide a b := by
  unfold operator_divide_w operator_divide
  rw [wrap_of_abs_lt w hw _ h1, wrap_of_abs_lt w hw _ h2]
  exact from_pair_w_eq_from_pair w hw _ _ h1 h2

/-! ## The claims -/

/-- Claim C1. Normal form of the pair constructor: for every `p` and every
`q ≠ 0` the constructor returns a pair `(n, d)` with `d ≥ 1`,
`gcd(|n|, d) = 1`, and `n = 0 → d = 1`. -/
theorem C1_from_pair_normal_form (p q : Int) (hq : q ≠ 0) :
    ∃ r, from_pair p q = some r ∧
      1 ≤ r.m_den ∧ Int.gcd |r.m_num| r.m_den = 1 ∧ (r.m_num = 0 → r.m_den = 1) := by
  obtain ⟨r, hr, hn, _⟩ := from_pair_spec p q hq
  exact ⟨r, hr, hn⟩

theorem C1_from_pair_normal_form_witness :
    (-6 : Int) ≠ 0 ∧ ∃ r, from_pair 4 (-6) = some r ∧
      1 ≤ r.m_den ∧ Int.gcd |r.m_num| r.m_den = 1 ∧ (r.m_num = 0 → r.m_den = 1) :=
  ⟨by decide, C1_from_pair_normal_form 4 (-6) (by decide)⟩

/-- Claim C2. Representation identity: if `p1 * q2 = p2 * q1` with `q1` and `q2`
non-zero, then `rational(p1, q1)` and `rational(p2, q2)` store the same
numerator and the same denominator. -/
theorem C2_representation_identity (p1 q1 p2 q2 : Int) (h1 : q1 ≠ 0) (h2 : q2 ≠ 0)
    (h : p1 * q2 = p2 * q1) :
    ∃ r1 r2, from_pair p1 q1 = some r1 ∧ from_pair p2 q2 = some r2 ∧
      r1.m_num = r2.m_num ∧ r1.m_den = r2.m_den := by
  obtain ⟨r1, hr1, hn1, hv1⟩ := from_pair_val p1 q1 h1
  obtain ⟨r2, hr2, hn2, hv2⟩ := from_pair_val p2 q2 h2
  have hq1 : (q1 : ℚ) ≠ 0 := by exact_mod_cast h1
  have hq2 : (q2 : ℚ) ≠ 0 := by exact_mod_cast h2
  have hv : val r1 = val r2 := by
    rw [hv1, hv2, div_eq_div_iff hq1 hq2]
    exact_mod_cast h
  have he := normal_eq_of_val_eq r1 r2 hn1 hn2 hv
  exact ⟨r1, r2, hr1, hr2, by rw [he], by rw [he]⟩

theorem C2_representation_identity_witness :
    (4 : Int) ≠ 0 ∧ (-6 : Int) ≠ 0 ∧ (2 : Int) * (-6) = (-3) * 4 ∧
      ∃ r1 r2, from_pair 2 4 = some r1 ∧ from_pair (-3) (-6) = some r2 ∧
        r1.m_num = r2.m_num ∧ r1.m_den = r2.m_den :=
  ⟨by decide, by decide, by decide,
    C2_representation_identity 2 4 (-3) (-6) (by decide) (by decide) (by decide)⟩

/-- Counterexample to claim C3 as stated (without a no-overflow proviso): in a
32-bit type `rational(-2147483648, -1)` stores `(-2147483648, 1)`, so
`n * q = p * d` fails and the stored pair denotes `-2147483648`, not
`2147483648`; in an 8-bit type `rational(-128, -127)` stores `(-128, 127)`. -/
theorem C3_counterexample :
    (-1 : Int) ≠ 0 ∧ representable 32 (-2147483648) ∧ representable 32 (-1) ∧
    from_pair_w 32 (-2147483648) (-1) = some { m_num := -2147483648, m_den := 1 } ∧
    (-2147483648 : Int) * (-1) ≠ (-2147483648) * 1 ∧
    val { m_num := -2147483648, m_den := 1 } ≠ ((-2147483648 : Int) : ℚ) / ((-1 : Int) : ℚ) ∧
    (-127 : Int) ≠ 0 ∧ representable 8 (-128) ∧ representable 8 (-127) ∧
    from_pair_w 8 (-128) (-127) = some { m_num := -128, m_den := 127 } ∧
    (-128 : Int) * (-127) ≠ (-128) * 127 := by
  refine ⟨by decide, by decide, by decide, by decide, by decide, ?_, by decide, by decide,
    by decide, by decide, by decide⟩
  norm_num [val]

/-- Claim C3, amended. The pair constructor preserves the denoted value when no
intermediate value overflows: over unbounded integers, for every `p` and every
`q ≠ 0` the stored pair `(n, d)` satisfies `n * q = p * d` and denotes `p / q`,
and the constructor of a `w`-bit type computes this same pair whenever `|p|`
and `|q|` are below `2 ^ (w - 1)`; the pair `(2, 4)` is stored as `(1, 2)`. -/
theorem C3_from_pair_preserves_value (p q : Int) (hq : q ≠ 0) :
    (∃ r, from_pair p q = some r ∧ r.m_num * q = p * r.m_den ∧
        val r = (p : ℚ) / (q : ℚ)) ∧
      (∀ w : Nat, 1 ≤ w → |p| < 2 ^ (w - 1) → |q| < 2 ^ (w - 1) →
        from_pair_w w p q = from_pair p q) ∧
      from_pair 2 4 = some { m_num := 1, m_den := 2 } := by
  obtain ⟨r, hr, _, hx⟩ := from_pair_spec p q hq
  obtain ⟨r', hr', _, hv⟩ := from_pair_val p q hq
  rw [hr] at hr'
  cases hr'
  exact ⟨⟨r, hr, hx, hv⟩, fun w hw hp hq' => from_pair_w_eq_from_pair w hw p q hp hq',
    by decide⟩

theorem C3_from_pair_preserves_value_witness :
    (9 : Int) ≠ 0 ∧
      ((∃ r, from_pair (-6) 9 = some r ∧ r.m_num * 9 = (-6) * r.m_den ∧
          val r = ((-6 : Int) : ℚ) / ((9 : Int) : ℚ)) ∧
        (∀ w : Nat, 1 ≤ w → |(-6 : Int)| < 2 ^ (w - 1) → |(9 : Int)| < 2 ^ (w - 1) →
          from_pair_w w (-6) 9 = from_pair (-6) 9) ∧
        from_pair 2 4 = some { m_num := 1, m_den := 2 }) :=
  ⟨by decide, C3_from_pair_preserves_value (-6) 9 (by decide)⟩

/-- Claim C4. Normal form is an invariant of every operation that returns a
rational: the default constructor, the integer constructor, the pair
constructor (non-zero denominator), binary `+`, `-`, `*`, `/` (divisor different
from `rational(0)`) and unary `+`, `-` return a pair in normal form when their
operands are in normal form, and each operator result is the pair constructor
applied to the pair of the operation table; unary `+` returns its operand
unchanged. -/
theorem C4_normal_form_invariant (a b : rational) (ha : NormalForm a) (hb : NormalForm b) :
    NormalForm default_ctor ∧
    (∀ n : Int, NormalForm (from_integer n)) ∧
    (∀ p q : Int, q ≠ 0 → ∃ r, from_pair p q = some r ∧ NormalForm r) ∧
    (∃ r, operator_plus a b = some r ∧ NormalForm r ∧
      from_pair (a.m_num * b.m_den + b.m_num * a.m_den) (a.m_den * b.m_den) = some r) ∧
    (∃ r, operator_minus a b = some r ∧ NormalForm r ∧
      from_pair (a.m_num * b.m_den - b.m_num * a.m_den) (a.m_den * b.m_den) = some r) ∧
    (∃ r, operator_times a b = some r ∧ NormalForm r ∧
      from_pair (a.m_num * b.m_num) (a.m_den * b.m_den) = some r) ∧
    (operator_ne b (from_integer 0) = true →
      ∃ r, operator_divide a b = some r ∧ NormalForm r ∧
        from_pair (a.m_num * b.m_den) (a.m_den * b.m_num) = some r) ∧
    (NormalForm (unary_plus a) ∧ unary_plus a = a ∧
      from_pair a.m_num a.m_den = some (unary_plus a)) ∧
    (∃ r, unary_minus a = some r ∧ NormalForm r ∧
      from_pair (-a.m_num) a.m_den = some r) := by
  have had : a.m_den ≠ 0 := by
    have := ha.1
    omega
  have hbd : b.m_den ≠ 0 := by
    have := hb.1
    omega
  have hdd : a.m_den * b.m_den ≠ 0 := mul_ne_zero had hbd
  refine ⟨by decide, ?_, ?_, ?_, ?_, ?_, ?_, ?_, ?_⟩
  · intro n
    refine ⟨le_refl _, ?_, fun _ => rfl⟩
    simp [from_integer]
  · intro p q hq
    obtain ⟨r, hr, hn, _⟩ := from_pair_spec p q hq
    exact ⟨r, hr, hn⟩
  · obtain ⟨r, hr, hn, _⟩ :=
      from_pair_spec (a.m_num * b.m_den + b.m_num * a.m_den) (a.m_den * b.m_den) hdd
    exact ⟨r, hr, hn, hr⟩
  · obtain ⟨r, hr, hn, _⟩ :=
      from_pair_spec (a.m_num * b.m_den - b.m_num * a.m_den) (a.m_den * b.m_den) hdd
    exact ⟨r, hr, hn, hr⟩
  · obtain ⟨r, hr, hn, _⟩ := from_pair_spec (a.m_num * b.m_num) (a.m_den * b.m_den) hdd
    exact ⟨r, hr, hn, hr⟩
  · intro hne
    have hbn : b.m_num ≠ 0 := num_ne_zero_of_ne_zero b hb hne
    obtain ⟨r, hr, hn, _⟩ :=
      from_pair_spec (a.m_num * b.m_den) (a.m_den * b.m_num) (mul_ne_zero had hbn)
    exact ⟨r, hr, hn, hr⟩
  · exact ⟨ha, rfl, from_pair_normal a ha⟩
  · obtain ⟨r, hr, hn, _⟩ := from_pair_spec (-a.m_num) a.m_den had
    exact ⟨r, hr, hn, hr⟩

theorem C4_normal_form_invariant_witness :
    NormalForm { m_num := -1, m_den := 2 } ∧ NormalForm { m_num := 3, m_den := 4 } ∧
    (∃ r, operator_plus { m_num := -1, m_den := 2 } { m_num := 3, m_den := 4 } = some r ∧
      NormalForm r ∧ from_pair ((-1) * 4 + 3 * 2) (2 * 4) = some r) ∧
    (operator_ne { m_num := 3, m_den := 4 } (from_integer 0) = true →
      ∃ r, operator_divide { m_num := -1, m_den := 2 } { m_num := 3, m_den := 4 } = some r ∧
        NormalForm r ∧ from_pair ((-1) * 4) (2 * 3) = some r) ∧
    (NormalForm (unary_plus { m_num := -1, m_den := 2 }) ∧
      unary_plus { m_num := -1, m_den := 2 } = { m_num := -1, m_den := 2 } ∧
      from_pair (-1) 2 = some (unary_plus { m_num := -1, m_den := 2 })) :=
  have h := C4_normal_form_invariant { m_num := -1, m_den := 2 } { m_num := 3, m_den := 4 }
    (by decide) (by decide)
  ⟨by decide, by decide, h.2.2.2.1, h.2.2.2.2.2.2.1, h.2.2.2.2.2.2.2.1⟩

/-- Claim C5. Arithmetic denotes rational arithmetic: for normal-form `a` and
`b`, the operators `+`, `-`, `*` and unary `-` return a pair whose value in `ℚ`
is the sum, difference, product and negation of the operand values;
`(1,2) + (1,3)` is stored as `(5,6)` and `(2,3) * (3,4)` as `(1,2)`. -/
theorem C5_arithmetic_denotes (a b : rational) (ha : NormalForm a) (hb : NormalForm b) :
    (∃ r, operator_plus a b = some r ∧ val r = val a + val b) ∧
    (∃ r, operator_minus a b = some r ∧ val r = val a - val b) ∧
    (∃ r, operator_times a b = some r ∧ val r = val a * val b) ∧
    (∃ r, unary_minus a = some r ∧ val r = -val a) ∧
    operator_plus { m_num := 1, m_den := 2 } { m_num := 1, m_den := 3 }
      = some { m_num := 5, m_den := 6 } ∧
    operator_times { m_num := 2, m_den := 3 } { m_num := 3, m_den := 4 }
      = some { m_num := 1, m_den := 2 } := by
  have had : a.m_den ≠ 0 := by
    have := ha.1
    omega
  have hbd : b.m_den ≠ 0 := by
    have := hb.1
    omega
  have hdd : a.m_den * b.m_den ≠ 0 := mul_ne_zero had hbd
  have had' : (a.m_den : ℚ) ≠ 0 := by exact_mod_cast had
  have hbd' : (b.m_den : ℚ) ≠ 0 := by exact_mod_cast hbd
  refine ⟨?_, ?_, ?_, ?_, by decide, by decide⟩
  · obtain ⟨r, hr, _, hv⟩ :=
      from_pair_val (a.m_num * b.m_den + b.m_num * a.m_den) (a.m_den * b.m_den) hdd
    refine ⟨r, hr, ?_⟩
    rw [hv]
    unfold val
    push_cast
    field_simp
  · obtain ⟨r, hr, _, hv⟩ :=
      from_pair_val (a.m_num * b.m_den - b.m_num * a.m_den) (a.m_den * b.m_den) hdd
    refine ⟨r, hr, ?_⟩
    rw [hv]
    unfold val
    push_cast
    field_simp
    ring
  · obtain ⟨r, hr, _, hv⟩ := from_pair_val (a.m_num * b.m_num) (a.m_den * b.m_den) hdd
    refine ⟨r, hr, ?_⟩
    rw [hv]
    unfold val
    push_cast
    field_simp
  · obtain ⟨r, hr, _, hv⟩ := from_pair_val (-a.m_num) a.m_den had
    refine ⟨r, hr, ?_⟩
    rw [hv]
    unfold val
    push_cast
    field_simp

theorem C5_arithmetic_denotes_witness :
    NormalForm { m_num := -1, m_den := 2 } ∧ NormalForm { m_num := 3, m_den := 4 } ∧
    (∃ r, operator_plus { m_num := -1, m_den := 2 } { m_num := 3, m_den := 4 } = some r ∧
      val r = val { m_num := -1, m_den := 2 } + val { m_num := 3, m_den := 4 }) ∧
    (∃ r, operator_times { m_num := -1, m_den := 2 } { m_num := 3, m_den := 4 } = some r ∧
      val r = val { m_num := -1, m_den := 2 } * val { m_num := 3, m_den := 4 }) :=
  have h := C5_arithmetic_denotes { m_num := -1, m_den := 2 } { m_num := 3, m_den := 4 }
    (by decide) (by decide)
  ⟨by decide, by decide, h.1, h.2.2.1⟩

/-- Counterexample to claim C6 as stated (without a no-overflow proviso): in a
32-bit type, `rational(1) / rational(-2147483648)` is stored as
`(-1, -2147483648)`, with a negative denominator and the value
`1 / 2147483648` instead of `-1 / 2147483648`, and `(1, 65536) / (65536, 1)` is
stored as `(0, 0)`. -/
theorem C6_counterexample :
    NormalForm { m_num := 1, m_den := 1 } ∧ NormalForm { m_num := -2147483648, m_den := 1 } ∧
    representable 32 1 ∧ representable 32 (-2147483648) ∧
    operator_ne { m_num := -2147483648, m_den := 1 } (from_integer 0) = true ∧
    operator_divide_w 32 { m_num := 1, m_den := 1 } { m_num := -2147483648, m_den := 1 }
      = some { m_num := -1, m_den := -2147483648 } ∧
    ¬ (0 : Int) < -2147483648 ∧ ¬ NormalForm { m_num := -1, m_den := -2147483648 } ∧
    val { m_num := -1, m_den := -2147483648 }
      ≠ val { m_num := 1, m_den := 1 } / val { m_num := -2147483648, m_den := 1 } ∧
    NormalForm { m_num := 1, m_den := 65536 } ∧ NormalForm { m_num := 65536, m_den := 1 } ∧
    representable 32 65536 ∧
    operator_ne { m_num := 65536, m_den := 1 } (from_integer 0) = true ∧
    operator_divide_w 32 { m_num := 1, m_den := 65536 } { m_num := 65536, m_den := 1 }
      = some { m_num := 0, m_den := 0 } := by
  refine ⟨by decide, by decide, by decide, by decide, by decide, by decide, by decide,
    by decide, ?_, by decide, by decide, by decide, by decide, by decide⟩
  norm_num [val]

/-- Claim C6, amended. Division when no intermediate value overflows: over
unbounded integers, for normal-form `a` and normal-form `b` different from
`rational(0)` (also negative `b`), `a / b` is the pair constructor applied to
`(a.num * b.den, a.den * b.num)`, is in normal form with a positive
denominator, and denotes `val a / val b`, and the operator of a `w`-bit type
computes this same pair whenever the absolute values of both products are
below `2 ^ (w - 1)`; `(1,2) / (3,4)` is stored as `(2,3)` and
`(1,2) / (-3,4)` as `(-2,3)`. -/
theorem C6_division (a b : rational) (ha : NormalForm a) (hb : NormalForm b)
    (hne : operator_ne b (from_integer 0) = true) :
    (∃ r, operator_divide a b = some r ∧
      from_pair (a.m_num * b.m_den) (a.m_den * b.m_num) = some r ∧
      NormalForm r ∧ 0 < r.m_den ∧ val r = val a / val b) ∧
    (∀ w : Nat, 1 ≤ w → |a.m_num * b.m_den| < 2 ^ (w - 1) →
      |a.m_den * b.m_num| < 2 ^ (w - 1) →
      operator_divide_w w a b = operator_divide a b) ∧
    operator_divide { m_num := 1, m_den := 2 } { m_num := 3, m_den := 4 }
      = some { m_num := 2, m_den := 3 } ∧
    operator_divide { m_num := 1, m_den := 2 } { m_num := -3, m_den := 4 }
      = some { m_num := -2, m_den := 3 } := by
  have had : a.m_den ≠ 0 := by
    have := ha.1
    omega
  have hbd : b.m_den ≠ 0 := by
    have := hb.1
    omega
  have hbn : b.m_num ≠ 0 := num_ne_zero_of_ne_zero b hb hne
  have had' : (a.m_den : ℚ) ≠ 0 := by exact_mod_cast had
  have hbd' : (b.m_den : ℚ) ≠ 0 := by exact_mod_cast hbd
  have hbn' : (b.m_num : ℚ) ≠ 0 := by exact_mod_cast hbn
  refine ⟨?_, fun w hw h1 h2 => operator_divide_w_eq w hw a b h1 h2, by decide, by decide⟩
  obtain ⟨r, hr, hn, hv⟩ :=
    from_pair_val (a.m_num * b.m_den) (a.m_den * b.m_num) (mul_ne_zero had hbn)
  refine ⟨r, hr, hr, hn, ?_, ?_⟩
  · have := hn.1
    omega
  · rw [hv]
    unfold val
    push_cast
    field_simp

theorem C6_division_witness :
    NormalForm { m_num := 5, m_den := 6 } ∧ NormalForm { m_num := -10, m_den := 9 } ∧
    operator_ne { m_num := -10, m_den := 9 } (from_integer 0) = true ∧
    (∃ r, operator_divide { m_num := 5, m_den := 6 } { m_num := -10, m_den := 9 } = some r ∧
      from_pair (5 * 9) (6 * (-10)) = some r ∧
      NormalForm r ∧ 0 < r.m_den ∧
      val r = val { m_num := 5, m_den := 6 } / val { m_num := -10, m_den := 9 }) ∧
    (∀ w : Nat, 1 ≤ w → |(5 : Int) * 9| < 2 ^ (w - 1) → |(6 : Int) * (-10)| < 2 ^ (w - 1) →
      operator_divide_w w { m_num := 5, m_den := 6 } { m_num := -10, m_den := 9 }
        = operator_divide { m_num := 5, m_den := 6 } { m_num := -10, m_den := 9 }) :=
  have h := C6_division { m_num := 5, m_den := 6 } { m_num := -10, m_den := 9 }
    (by decide) (by decide) (by decide)
  ⟨by decide, by decide, by decide, h.1, h.2.1⟩

/-- Claim C7. Equality is mathematical equality: for normal-form `a` and `b`,
`operator==` returns true iff `a.num * b.den = b.num * a.den`, i.e. iff `a` and
`b` denote the same rational number; `operator!=` is its negation;
`rational(1,2) == rational(2,4)` is true. -/
theorem C7_equality (a b : rational) (ha : NormalForm a) (hb : NormalForm b) :
    (operator_eq a b = true ↔ a.m_num * b.m_den = b.m_num * a.m_den) ∧
    (operator_eq a b = true ↔ val a = val b) ∧
    operator_ne a b = !(operator_eq a b) ∧
    (∃ r1 r2, from_pair 1 2 = some r1 ∧ from_pair 2 4 = some r2 ∧
      operator_eq r1 r2 = true) := by
  have had : a.m_den ≠ 0 := by
    have := ha.1
    omega
  have hbd : b.m_den ≠ 0 := by
    have := hb.1
    omega
  have hval : operator_eq a b = true ↔ val a = val b := by
    rw [operator_eq_iff]
    constructor
    · intro h
      rw [h]
    · exact normal_eq_of_val_eq a b ha hb
  refine ⟨?_, hval, rfl, ?_⟩
  · rw [hval, val_eq_iff a b had hbd]
  · exact ⟨{ m_num := 1, m_den := 2 }, { m_num := 1, m_den := 2 },
      by decide, by decide, by decide⟩

theorem C7_equality_witness :
    NormalForm { m_num := -2, m_den := 3 } ∧ NormalForm { m_num := 5, m_den := 7 } ∧
    (operator_eq { m_num := -2, m_den := 3 } { m_num := 5, m_den := 7 } = true ↔
      (-2 : Int) * 7 = 5 * 3) ∧
    (operator_eq { m_num := -2, m_den := 3 } { m_num := 5, m_den := 7 } = true ↔
      val { m_num := -2, m_den := 3 } = val { m_num := 5, m_den := 7 }) :=
  have h := C7_equality { m_num := -2, m_den := 3 } { m_num := 5, m_den := 7 }
    (by decide) (by decide)
  ⟨by decide, by decide, h.1, h.2.1⟩

/-- Claim C8. Ordering is the order of `ℚ`: for normal-form `a` and `b`,
`a < b` returns true iff `a.num * b.den < b.num * a.den` iff `val a < val b`,
and the derived operators satisfy `a > b ⇔ b < a`, `a ≥ b ⇔ ¬(a < b)`,
`a ≤ b ⇔ ¬(b < a)`. -/
theorem C8_ordering (a b : rational) (ha : NormalForm a) (hb : NormalForm b) :
    (operator_lt a b = true ↔ a.m_num * b.m_den < b.m_num * a.m_den) ∧
    (operator_lt a b = true ↔ val a < val b) ∧
    (operator_gt a b = true ↔ operator_lt b a = true) ∧
    (operator_ge a b = true ↔ ¬ operator_lt a b = true) ∧
    (operator_le a b = true ↔ ¬ operator_lt b a = true) := by
  have had : 0 < a.m_den := by
    have := ha.1
    omega
  have hbd : 0 < b.m_den := by
    have := hb.1
    omega
  refine ⟨?_, operator_lt_iff_val a b had hbd, Iff.rfl, ?_, ?_⟩
  · simp [operator_lt]
  · simp [operator_ge]
  · simp [operator_le, operator_gt]

theorem C8_ordering_witness :
    NormalForm { m_num := 1, m_den := 2 } ∧ NormalForm { m_num := 2, m_den := 3 } ∧
    (operator_lt { m_num := 1, m_den := 2 } { m_num := 2, m_den := 3 } = true ↔
      (1 : Int) * 3 < 2 * 2) ∧
    (operator_lt { m_num := 1, m_den := 2 } { m_num := 2, m_den := 3 } = true ↔
      val { m_num := 1, m_den := 2 } < val { m_num := 2, m_den := 3 }) :=
  have h := C8_ordering { m_num := 1, m_den := 2 } { m_num := 2, m_den := 3 }
    (by decide) (by decide)
  ⟨by decide, by decide, h.1, h.2.1⟩

/-- Claim C9. Order totality: for normal-form `a` and `b`, exactly one of
`a < b`, `a == b`, `a > b` is true. -/
theorem C9_trichotomy (a b : rational) (ha : NormalForm a) (hb : NormalForm b) :
    (operator_lt a b = true ∨ operator_eq a b = true ∨ operator_gt a b = true) ∧
    ¬ (operator_lt a b = true ∧ operator_eq a b = true) ∧
    ¬ (operator_lt a b = true ∧ operator_gt a b = true) ∧
    ¬ (operator_eq a b = true ∧ operator_gt a b = true) := by
  have had : 0 < a.m_den := by
    have := ha.1
    omega
  have hbd : 0 < b.m_den := by
    have := hb.1
    omega
  have hlt := operator_lt_iff_val a b had hbd
  have hgt : operator_gt a b = true ↔ val b < val a := operator_lt_iff_val b a hbd had
  have heq : operator_eq a b = true ↔ val a = val b := by
    rw [operator_eq_iff]
    constructor
    · intro h
      rw [h]
    · exact normal_eq_of_val_eq a b ha hb
  rw [hlt, hgt, heq]
  rcases lt_trichotomy (val a) (val b) with h | h | h
  · exact ⟨Or.inl h, fun x => h.ne x.2, fun x => lt_asymm h x.2, fun x => h.ne x.1⟩
  · exact ⟨Or.inr (Or.inl h), fun x => x.1.ne h, fun x => x.1.ne h, fun x => x.2.ne h.symm⟩
  · exact ⟨Or.inr (Or.inr h), fun x => lt_asymm h x.1, fun x => lt_asymm h x.1,
      fun x => h.ne x.1.symm⟩

theorem C9_trichotomy_witness :
    NormalForm { m_num := -1, m_den := 2 } ∧ NormalForm { m_num := 1, m_den := 3 } ∧
    ((operator_lt { m_num := -1, m_den := 2 } { m_num := 1, m_den := 3 } = true ∨
      operator_eq { m_num := -1, m_den := 2 } { m_num := 1, m_den := 3 } = true ∨
      operator_gt { m_num := -1, m_den := 2 } { m_num := 1, m_den := 3 } = true) ∧
    ¬ (operator_lt { m_num := -1, m_den := 2 } { m_num := 1, m_den := 3 } = true ∧
      operator_eq { m_num := -1, m_den := 2 } { m_num := 1, m_den := 3 } = true) ∧
    ¬ (operator_lt { m_num := -1, m_den := 2 } { m_num := 1, m_den := 3 } = true ∧
      operator_gt { m_num := -1, m_den := 2 } { m_num := 1, m_den := 3 } = true) ∧
    ¬ (operator_eq { m_num := -1, m_den := 2 } { m_num := 1, m_den := 3 } = true ∧
      operator_gt { m_num := -1, m_den := 2 } { m_num := 1, m_den := 3 } = true)) :=
  ⟨by decide, by decide,
    C9_trichotomy { m_num := -1, m_den := 2 } { m_num := 1, m_den := 3 }
      (by decide) (by decide)⟩

/-- Claim C10. Order monotonicity: for normal-form `a`, `b`, `c`, `a < b`
implies `a + c < b + c`, and if `c > rational(0)` then `a < b` implies
`a * c < b * c`, with the normalising operators `+`, `*` and the
cross-multiplication operator `<`. -/
theorem C10_monotonicity (a b c : rational) (ha : NormalForm a) (hb : NormalForm b)
    (hc : NormalForm c) (hab : operator_lt a b = true) :
    (∃ r1 r2, operator_plus a c = some r1 ∧ operator_plus b c = some r2 ∧
      operator_lt r1 r2 = true) ∧
    (operator_gt c (from_integer 0) = true →
      ∃ r1 r2, operator_times a c = some r1 ∧ operator_times b c = some r2 ∧
        operator_lt r1 r2 = true) := by
  have had : 0 < a.m_den := by
    have := ha.1
    omega
  have hbd : 0 < b.m_den := by
    have := hb.1
    omega
  have hcd : 0 < c.m_den := by
    have := hc.1
    omega
  have hv : val a < val b := (operator_lt_iff_val a b had hbd).mp hab
  obtain ⟨r1, hr1, hn1, hv1⟩ := (operator_plus_val a c ha hc)
  obtain ⟨r2, hr2, hn2, hv2⟩ := (operator_plus_val b c hb hc)
  obtain ⟨s1, hs1, hm1, hw1⟩ := (operator_times_val a c ha hc)
  obtain ⟨s2, hs2, hm2, hw2⟩ := (operator_times_val b c hb hc)
  constructor
  · refine ⟨r1, r2, hr1, hr2, ?_⟩
    rw [operator_lt_iff_val r1 r2 (by have := hn1.1; omega) (by have := hn2.1; omega),
      hv1, hv2]
    exact add_lt_add_right hv _
  · intro hpos
    refine ⟨s1, s2, hs1, hs2, ?_⟩
    have hcpos : 0 < val c := by
      have h0 := (operator_lt_iff_val (from_integer 0) c (by decide) hcd).mp hpos
      simpa [val, from_integer] using h0
    rw [operator_lt_iff_val s1 s2 (by have := hm1.1; omega) (by have := hm2.1; omega),
      hw1, hw2]
    exact mul_lt_mul_of_pos_right hv hcpos

theorem C10_monotonicity_witness :
    NormalForm { m_num := 1, m_den := 2 } ∧ NormalForm { m_num := 2, m_den := 3 } ∧
    NormalForm { m_num := 3, m_den := 4 } ∧
    operator_lt { m_num := 1, m_den := 2 } { m_num := 2, m_den := 3 } = true ∧
    ((∃ r1 r2, operator_plus { m_num := 1, m_den := 2 } { m_num := 3, m_den := 4 } = some r1 ∧
      operator_plus { m_num := 2, m_den := 3 } { m_num := 3, m_den := 4 } = some r2 ∧
      operator_lt r1 r2 = true) ∧
    (operator_gt { m_num := 3, m_den := 4 } (from_integer 0) = true →
      ∃ r1 r2, operator_times { m_num := 1, m_den := 2 } { m_num := 3, m_den := 4 } = some r1 ∧
        operator_times { m_num := 2, m_den := 3 } { m_num := 3, m_den := 4 } = some r2 ∧
        operator_lt r1 r2 = true)) :=
  ⟨by decide, by decide, by decide, by decide,
    C10_monotonicity { m_num := 1, m_den := 2 } { m_num := 2, m_den := 3 }
      { m_num := 3, m_den := 4 } (by decide) (by decide) (by decide) (by decide)⟩

/-- Claim C11. Commutativity and associativity as equality of stored pairs: for
normal-form `a`, `b`, `c`, `a + b == b + a`, `a * b == b * a`,
`(a + b) + c == a + (b + c)` and `(a * b) * c == a * (b * c)` under the
componentwise `operator==`. -/
theorem C11_comm_assoc (a b c : rational) (ha : NormalForm a) (hb : NormalForm b)
    (hc : NormalForm c) :
    (∃ x y, operator_plus a b = some x ∧ operator_plus b a = some y ∧
      operator_eq x y = true) ∧
    (∃ x y, operator_times a b = some x ∧ operator_times b a = some y ∧
      operator_eq x y = true) ∧
    (∃ ab l bc r, operator_plus a b = some ab ∧ operator_plus ab c = some l ∧
      operator_plus b c = some bc ∧ operator_plus a bc = some r ∧
      operator_eq l r = true) ∧
    (∃ ab l bc r, operator_times a b = some ab ∧ operator_times ab c = some l ∧
      operator_times b c = some bc ∧ operator_times a bc = some r ∧
      operator_eq l r = true) := by
  obtain ⟨pab, hpab, npab, vpab⟩ := operator_plus_val a b ha hb
  obtain ⟨pba, hpba, npba, vpba⟩ := operator_plus_val b a hb ha
  obtain ⟨tab, htab, ntab, vtab⟩ := operator_times_val a b ha hb
  obtain ⟨tba, htba, ntba, vtba⟩ := operator_times_val b a hb ha
  obtain ⟨pbc, hpbc, npbc, vpbc⟩ := operator_plus_val b c hb hc
  obtain ⟨tbc, htbc, ntbc, vtbc⟩ := operator_times_val b c hb hc
  obtain ⟨pl, hpl, npl, vpl⟩ := operator_plus_val pab c npab hc
  obtain ⟨pr, hpr, npr, vpr⟩ := operator_plus_val a pbc ha npbc
  obtain ⟨tl, htl, ntl, vtl⟩ := operator_times_val tab c ntab hc
  obtain ⟨tr, htr, ntr, vtr⟩ := operator_times_val a tbc ha ntbc
  refine ⟨⟨pab, pba, hpab, hpba, ?_⟩, ⟨tab, tba, htab, htba, ?_⟩,
    ⟨pab, pl, pbc, pr, hpab, hpl, hpbc, hpr, ?_⟩,
    ⟨tab, tl, tbc, tr, htab, htl, htbc, htr, ?_⟩⟩
  · exact operator_eq_of_val_eq _ _ npab npba (by rw [vpab, vpba, add_comm])
  · exact operator_eq_of_val_eq _ _ ntab ntba (by rw [vtab, vtba, mul_comm])
  · exact operator_eq_of_val_eq _ _ npl npr (by rw [vpl, vpr, vpab, vpbc, add_assoc])
  · exact operator_eq_of_val_eq _ _ ntl ntr (by rw [vtl, vtr, vtab, vtbc, mul_assoc])

theorem C11_comm_assoc_witness :
    NormalForm { m_num := 1, m_den := 2 } ∧ NormalForm { m_num := -2, m_den := 3 } ∧
    NormalForm { m_num := 5, m_den := 6 } ∧
    (∃ x y, operator_plus { m_num := 1, m_den := 2 } { m_num := -2, m_den := 3 } = some x ∧
      operator_plus { m_num := -2, m_den := 3 } { m_num := 1, m_den := 2 } = some y ∧
      operator_eq x y = true) ∧
    (∃ ab l bc r,
      operator_times { m_num := 1, m_den := 2 } { m_num := -2, m_den := 3 } = some ab ∧
      operator_times ab { m_num := 5, m_den := 6 } = some l ∧
      operator_times { m_num := -2, m_den := 3 } { m_num := 5, m_den := 6 } = some bc ∧
      operator_times { m_num := 1, m_den := 2 } bc = some r ∧
      operator_eq l r = true) :=
  have h := C11_comm_assoc { m_num := 1, m_den := 2 } { m_num := -2, m_den := 3 }
    { m_num := 5, m_den := 6 } (by decide) (by decide) (by decide)
  ⟨by decide, by decide, by decide, h.1, h.2.2.2⟩

/-- Claim C12. Distributivity as equality of stored pairs: for normal-form `a`,
`b`, `c`, `a * (b + c) == a * b + a * c` under the componentwise
`operator==`. -/
theorem C12_distributivity (a b c : rational) (ha : NormalForm a) (hb : NormalForm b)
    (hc : NormalForm c) :
    ∃ bc l ab ac r, operator_plus b c = some bc ∧ operator_times a bc = some l ∧
      operator_times a b = some ab ∧ operator_times a c = some ac ∧
      operator_plus ab ac = some r ∧ operator_eq l r = true := by
  obtain ⟨bc, hbc, nbc, vbc⟩ := operator_plus_val b c hb hc
  obtain ⟨l, hl, nl, vl⟩ := operator_times_val a bc ha nbc
  obtain ⟨ab, hab, nab, vab⟩ := operator_times_val a b ha hb
  obtain ⟨ac, hac, nac, vac⟩ := operator_times_val a c ha hc
  obtain ⟨r, hr, nr, vr⟩ := operator_plus_val ab ac nab nac
  exact ⟨bc, l, ab, ac, r, hbc, hl, hab, hac, hr,
    operator_eq_of_val_eq _ _ nl nr (by rw [vl, vr, vbc, vab, vac, mul_add])⟩

theorem C12_distributivity_witness :
    NormalForm { m_num := -3, m_den := 4 } ∧ NormalForm { m_num := 1, m_den := 6 } ∧
    NormalForm { m_num := 5, m_den := 9 } ∧
    ∃ bc l ab ac r,
      operator_plus { m_num := 1, m_den := 6 } { m_num := 5, m_den := 9 } = some bc ∧
      operator_times { m_num := -3, m_den := 4 } bc = some l ∧
      operator_times { m_num := -3, m_den := 4 } { m_num := 1, m_den := 6 } = some ab ∧
      operator_times { m_num := -3, m_den := 4 } { m_num := 5, m_den := 9 } = some ac ∧
      operator_plus ab ac = some r ∧ operator_eq l r = true :=
  ⟨by decide, by decide, by decide,
    C12_distributivity { m_num := -3, m_den := 4 } { m_num := 1, m_den := 6 }
      { m_num := 5, m_den := 9 } (by decide) (by decide) (by decide)⟩

/-- Claim C13. Identities and inverses as equality of stored pairs: for
normal-form `q`, `q + rational(0) == q`, `q * rational(1) == q`,
`q + (-q) == rational(0)`, and if `q != rational(0)` then
`q * (rational(1) / q) == rational(1)`, also for negative `q`. -/
theorem C13_identities_inverses (q : rational) (hq : NormalForm q) :
    (∃ r, operator_plus q (from_integer 0) = some r ∧ operator_eq r q = true) ∧
    (∃ r, operator_times q (from_integer 1) = some r ∧ operator_eq r q = true) ∧
    (∃ m r, unary_minus q = some m ∧ operator_plus q m = some r ∧
      operator_eq r (from_integer 0) = true) ∧
    (operator_ne q (from_integer 0) = true →
      ∃ i r, operator_divide (from_integer 1) q = some i ∧ operator_times q i = some r ∧
        operator_eq r (from_integer 1) = true) := by
  obtain ⟨n0, v0⟩ := from_integer_normal 0
  obtain ⟨n1, v1⟩ := from_integer_normal 1
  refine ⟨?_, ?_, ?_, ?_⟩
  · obtain ⟨r, hr, nr, vr⟩ := operator_plus_val q (from_integer 0) hq n0
    exact ⟨r, hr, operator_eq_of_val_eq _ _ nr hq (by rw [vr, v0]; simp)⟩
  · obtain ⟨r, hr, nr, vr⟩ := operator_times_val q (from_integer 1) hq n1
    exact ⟨r, hr, operator_eq_of_val_eq _ _ nr hq (by rw [vr, v1]; simp)⟩
  · obtain ⟨m, hm, nm, vm⟩ := unary_minus_val q hq
    obtain ⟨r, hr, nr, vr⟩ := operator_plus_val q m hq nm
    exact ⟨m, r, hm, hr, operator_eq_of_val_eq _ _ nr n0 (by rw [vr, vm, v0]; simp)⟩
  · intro hne
    have hqn : q.m_num ≠ 0 := num_ne_zero_of_ne_zero q hq hne
    obtain ⟨i, hi, ni, vi⟩ := operator_divide_val (from_integer 1) q n1 hq hqn
    obtain ⟨r, hr, nr, vr⟩ := operator_times_val q i hq ni
    refine ⟨i, r, hi, hr, operator_eq_of_val_eq _ _ nr n1 ?_⟩
    have hqd : (q.m_den : ℚ) ≠ 0 := by
      have := hq.1
      have : q.m_den ≠ 0 := by omega
      exact_mod_cast this
    have hqn' : (q.m_num : ℚ) ≠ 0 := by exact_mod_cast hqn
    have hv : val q ≠ 0 := div_ne_zero hqn' hqd
    rw [vr, vi, v1]
    field_simp

theorem C13_identities_inverses_witness :
    NormalForm { m_num := -3, m_den := 7 } ∧
    (∃ r, operator_plus { m_num := -3, m_den := 7 } (from_integer 0) = some r ∧
      operator_eq r { m_num := -3, m_den := 7 } = true) ∧
    (∃ m r, unary_minus { m_num := -3, m_den := 7 } = some m ∧
      operator_plus { m_num := -3, m_den := 7 } m = some r ∧
      operator_eq r (from_integer 0) = true) ∧
    (operator_ne { m_num := -3, m_den := 7 } (from_integer 0) = true →
      ∃ i r, operator_divide (from_integer 1) { m_num := -3, m_den := 7 } = some i ∧
        operator_times { m_num := -3, m_den := 7 } i = some r ∧
        operator_eq r (from_integer 1) = true) :=
  have h := C13_identities_inverses { m_num := -3, m_den := 7 } (by decide)
  ⟨by decide, h.1, h.2.2.1, h.2.2.2⟩

/-- Counterexample to claim C14 as stated: `rational(5, 0)` reaches no division
by zero, both guarded divisions succeed and the pair `(0, 0)` is stored; the
same holds for `(1,2) / rational(0)`. -/
theorem C14_counterexample :
    int_div 5 (std_gcd 5 0) = some 1 ∧ int_div 0 (std_gcd 5 0) = some 0 ∧
    from_pair 5 0 = some { m_num := 0, m_den := 0 } ∧
    operator_divide { m_num := 1, m_den := 2 } (from_integer 0)
      = some { m_num := 0, m_den := 0 } := by
  decide

/-- Claim C14, amended. When the pair constructor is invoked with denominator
`0`, directly as `rational(p, 0)` or through `a / b` with `b = rational(0)`,
normalization reaches a division by zero exactly when the numerator handed to
the constructor is `0` as well. -/
theorem C14_zero_denominator_amended (p : Int) (a : rational) :
    (int_div p (std_gcd p 0) = none ↔ p = 0) ∧
    (from_pair p 0 = none ↔ p = 0) ∧
    (operator_divide a (from_integer 0) = none ↔ a.m_num = 0) := by
  refine ⟨?_, ?_, ?_⟩
  · simp [int_div, std_gcd]
  · rw [from_pair_eq_none_iff]
    simp
  · unfold operator_divide from_integer
    rw [from_pair_eq_none_iff]
    simp

/-- Claim C17. Sign handling of the pair constructor: for `q ≠ 0`,
`rational(-p, -q)` stores the same pair as `rational(p, q)`, `rational(p, -q)`
stores the same pair as `rational(-p, q)`, which is `-rational(p, q)`,
`rational(0, q)` stores `(0, 1)`, and the sign of the stored numerator is
`common_sign(p, q)`; `(-3, -6)` is stored as `(1, 2)`, `(3, -6)` as `(-1, 2)`
and `(0, 5)` as `(0, 1)`. -/
theorem C17_sign_handling (p q : Int) (hq : q ≠ 0) :
    (∃ r, from_pair p q = some r ∧ from_pair (-p) (-q) = some r ∧
      (∃ m, unary_minus r = some m ∧ from_pair p (-q) = some m ∧
        from_pair (-p) q = some m) ∧
      Int.sign r.m_num = common_sign p q) ∧
    from_pair 0 q = some { m_num := 0, m_den := 1 } ∧
    from_pair (-3) (-6) = some { m_num := 1, m_den := 2 } ∧
    from_pair 3 (-6) = some { m_num := -1, m_den := 2 } ∧
    from_pair 0 5 = some { m_num := 0, m_den := 1 } := by
  have hnq : -q ≠ 0 := neg_ne_zero.mpr hq
  obtain ⟨r, hr, hn, hx⟩ := from_pair_spec p q hq
  have hrd : r.m_den ≠ 0 := by
    have := hn.1
    omega
  obtain ⟨m, hm, _, _⟩ := from_pair_spec (-p) q hq
  refine ⟨⟨r, hr, ?_, ⟨m, ?_, ?_, hm⟩, from_pair_sign p q hq r hr⟩, ?_,
    by decide, by decide, by decide⟩
  · rw [← hr]
    exact from_pair_congr (-p) (-q) p q hnq hq (by ring)
  · rw [← hm]
    exact from_pair_congr (-r.m_num) r.m_den (-p) q hrd hq (by linear_combination -hx)
  · rw [← hm]
    exact from_pair_congr p (-q) (-p) q hnq hq (by ring)
  · have h01 : from_pair 0 1 = some { m_num := 0, m_den := 1 } := by decide
    rw [← h01]
    exact from_pair_congr 0 q 0 1 hq one_ne_zero (by ring)

theorem C17_sign_handling_witness :
    (-6 : Int) ≠ 0 ∧
    ((∃ r, from_pair 4 (-6) = some r ∧ from_pair (-4) (- -6) = some r ∧
      (∃ m, unary_minus r = some m ∧ from_pair 4 (- -6) = some m ∧
        from_pair (-4) (-6) = some m) ∧
      Int.sign r.m_num = common_sign 4 (-6)) ∧
    from_pair 0 (-6) = some { m_num := 0, m_den := 1 } ∧
    from_pair (-3) (-6) = some { m_num := 1, m_den := 2 } ∧
    from_pair 3 (-6) = some { m_num := -1, m_den := 2 } ∧
    from_pair 0 5 = some { m_num := 0, m_den := 1 }) :=
  ⟨by decide, C17_sign_handling 4 (-6) (by decide)⟩

/-- Claim C19. Exact characterisation of the zero-denominator case: for
`p ≠ 0`, `rational(p, 0)` evaluates without a division by zero
(`gcd(p, 0) = |p| ≠ 0`) and stores the non-normal pair `(0, 0)`; the pair
constructor divides by zero if and only if `p = 0` and `q = 0`. Consequently
`a / rational(0)` stores `(0, 0)` for every normal-form `a` different from
`rational(0)` and divides by zero only for `a` equal to `rational(0)`. -/
theorem C19_zero_denominator_exact (p q : Int) (a : rational) (ha : NormalForm a) :
    (p ≠ 0 → std_gcd p 0 = |p| ∧ std_gcd p 0 ≠ 0 ∧
      (∃ x, int_div p (std_gcd p 0) = some x) ∧ (∃ y, int_div 0 (std_gcd p 0) = some y) ∧
      from_pair p 0 = some { m_num := 0, m_den := 0 }) ∧
    ¬ NormalForm { m_num := 0, m_den := 0 } ∧
    (from_pair p q = none ↔ p = 0 ∧ q = 0) ∧
    (operator_ne a (from_integer 0) = true →
      operator_divide a (from_integer 0) = some { m_num := 0, m_den := 0 }) ∧
    (operator_divide a (from_integer 0) = none ↔ operator_eq a (from_integer 0) = true) := by
  have hdiv : operator_divide a (from_integer 0) = from_pair a.m_num 0 := by
    simp [operator_divide, from_integer]
  refine ⟨?_, by decide, from_pair_eq_none_iff p q, ?_, ?_⟩
  · intro hp
    have hg : std_gcd p 0 ≠ 0 := by
      simpa [std_gcd] using hp
    refine ⟨?_, hg, ?_, ?_, from_pair_zero_den p hp⟩
    · simp [std_gcd]
    · exact ⟨_, if_neg hg⟩
    · exact ⟨_, if_neg hg⟩
  · intro hne
    rw [hdiv]
    exact from_pair_zero_den _ (num_ne_zero_of_ne_zero a ha hne)
  · rw [hdiv, from_pair_eq_none_iff, operator_eq_iff]
    constructor
    · rintro ⟨h0, _⟩
      have hd := ha.2.2 h0
      cases a
      simp only [from_integer, rational.mk.injEq]
      exact ⟨h0, hd⟩
    · intro h
      rw [h]
      exact ⟨rfl, rfl⟩

theorem C19_zero_denominator_exact_witness :
    NormalForm { m_num := -3, m_den := 4 } ∧
    ((-7 : Int) ≠ 0 → std_gcd (-7) 0 = |(-7 : Int)| ∧ std_gcd (-7) 0 ≠ 0 ∧
      (∃ x, int_div (-7) (std_gcd (-7) 0) = some x) ∧
      (∃ y, int_div 0 (std_gcd (-7) 0) = some y) ∧
      from_pair (-7) 0 = some { m_num := 0, m_den := 0 }) ∧
    (operator_ne { m_num := -3, m_den := 4 } (from_integer 0) = true →
      operator_divide { m_num := -3, m_den := 4 } (from_integer 0)
        = some { m_num := 0, m_den := 0 }) :=
  have h := C19_zero_denominator_exact (-7) 0 { m_num := -3, m_den := 4 } (by decide)
  ⟨by decide, h.1, h.2.2.2.1⟩

/-- Claim C15. Cross-width conversion: for normal-form `a`, `b` over a type of
`wI` bits and a wider type of `wJ` bits, the conversion stores the same
numerator and denominator, so `a == b` iff the converted values are `==`; for
every target width the result is the pair constructor of the target type
applied to the components reduced modulo `2 ^ w` into the target type. -/
theorem C15_cross_width (wI wJ : Nat) (a b : rational) (hI : 1 ≤ wI) (hJ : wI < wJ)
    (ha : NormalForm a) (hb : NormalForm b)
    (han : representable wI a.m_num) (had : representable wI a.m_den)
    (hbn : representable wI b.m_num) (hbd : representable wI b.m_den) :
    (∃ a' b', operator_rational wJ a = some a' ∧ operator_rational wJ b = some b' ∧
      a'.m_num = a.m_num ∧ a'.m_den = a.m_den ∧
      b'.m_num = b.m_num ∧ b'.m_den = b.m_den ∧
      (operator_eq a b = true ↔ operator_eq a' b' = true)) ∧
    (∀ (w : Nat) (q : rational), 1 ≤ w →
      operator_rational w q = from_pair_w w (wrap w q.m_num) (wrap w q.m_den) ∧
      representable w (wrap w q.m_num) ∧ (2 : Int) ^ w ∣ q.m_num - wrap w q.m_num ∧
      representable w (wrap w q.m_den) ∧ (2 : Int) ^ w ∣ q.m_den - wrap w q.m_den) ∧
    operator_rational 8 { m_num := 257, m_den := 2 } = some { m_num := 1, m_den := 2 } := by
  have hJ1 : 1 ≤ wJ := by omega
  have hJ2 : 2 ≤ wJ := by omega
  have key : ∀ q : rational, NormalForm q → representable wI q.m_num →
      representable wI q.m_den → operator_rational wJ q = some q := by
    intro q hq hn hd
    obtain ⟨hn1, hn2⟩ := representable_widen wI wJ hI hJ q.m_num hn
    obtain ⟨hd1, _⟩ := representable_widen wI wJ hI hJ q.m_den hd
    unfold operator_rational
    rw [wrap_of_representable wJ hJ1 _ hn1, wrap_of_representable wJ hJ1 _ hd1]
    exact from_pair_w_normal wJ hJ2 q hq hn1 hn2 hd1
  refine ⟨⟨a, b, key a ha han had, key b hb hbn hbd, rfl, rfl, rfl, rfl, Iff.rfl⟩, ?_,
    by decide⟩
  intro w q hw
  exact ⟨rfl, representable_wrap w hw _, wrap_modEq w _, representable_wrap w hw _,
    wrap_modEq w _⟩

theorem C15_cross_width_witness :
    1 ≤ 8 ∧ 8 < 16 ∧
    NormalForm { m_num := -128, m_den := 1 } ∧ NormalForm { m_num := 5, m_den := 127 } ∧
    representable 8 (-128) ∧ representable 8 1 ∧ representable 8 5 ∧ representable 8 127 ∧
    ∃ a' b', operator_rational 16 { m_num := -128, m_den := 1 } = some a' ∧
      operator_rational 16 { m_num := 5, m_den := 127 } = some b' ∧
      a'.m_num = -128 ∧ a'.m_den = 1 ∧ b'.m_num = 5 ∧ b'.m_den = 127 ∧
      (operator_eq { m_num := -128, m_den := 1 } { m_num := 5, m_den := 127 } = true ↔
        operator_eq a' b' = true) :=
  ⟨by decide, by decide, by decide, by decide, by decide, by decide, by decide, by decide,
    (C15_cross_width 8 16 { m_num := -128, m_den := 1 } { m_num := 5, m_den := 127 }
      (by decide) (by decide) (by decide) (by decide) (by decide) (by decide) (by decide)
      (by decide)).1⟩

/-- Claim C16. Scalar conversion to an integer type: for a normal-form
`q = (n, d)` and a signed integer type of `w` bits holding `n` and `d`, the
conversion returns `n / d` truncated toward zero, which is the floor of the
denoted value for `n ≥ 0` and its ceiling for `n < 0`; `(-7, 2)` converts to
`-3`, not `-4`. -/
theorem C16_scalar_conversion (w : Nat) (q : rational) (hw : 1 ≤ w) (hq : NormalForm q)
    (hn : representable w q.m_num) (hd : representable w q.m_den) :
    operator_To w q = some (Int.tdiv q.m_num q.m_den) ∧
    (0 ≤ q.m_num → Int.tdiv q.m_num q.m_den = ⌊val q⌋) ∧
    (q.m_num < 0 → Int.tdiv q.m_num q.m_den = ⌈val q⌉) ∧
    operator_To 8 { m_num := -7, m_den := 2 } = some (-3) ∧
    operator_To 8 { m_num := -7, m_den := 2 } ≠ some (-4) := by
  have hd1 : 1 ≤ q.m_den := hq.1
  have hd0 : q.m_den ≠ 0 := by omega
  obtain ⟨k, hk⟩ : ∃ k : Nat, q.m_den = (k : Int) :=
    ⟨q.m_den.toNat, (Int.toNat_of_nonneg (by omega)).symm⟩
  have hv : val q = (q.m_num : ℚ) / (k : ℚ) := by
    unfold val
    rw [hk, Int.cast_natCast]
  have hfc := tdiv_floor_ceil q.m_num k
  refine ⟨?_, ?_, ?_, by decide, by decide⟩
  · unfold operator_To int_div
    rw [wrap_of_representable w hw _ hn, wrap_of_representable w hw _ hd]
    simp only [hd0, if_false]
    rw [wrap_of_representable w hw _ (tdiv_representable w _ _ hd1 hn)]
  · intro h
    rw [hv, hk]
    exact hfc.1 h
  · intro h
    rw [hv, hk]
    exact hfc.2 h

theorem C16_scalar_conversion_witness :
    1 ≤ 16 ∧ NormalForm { m_num := -22, m_den := 7 } ∧ representable 16 (-22) ∧
    representable 16 7 ∧
    operator_To 16 { m_num := -22, m_den := 7 } = some (Int.tdiv (-22) 7) ∧
    ((-22 : Int) < 0 → Int.tdiv (-22) 7 = ⌈val { m_num := -22, m_den := 7 }⌉) :=
  have h := C16_scalar_conversion 16 { m_num := -22, m_den := 7 } (by decide) (by decide)
    (by decide) (by decide)
  ⟨by decide, by decide, by decide, by decide, h.1, h.2.2.1⟩

/-- Claim C18. Overflow in comparison: with the cross products of `operator<`
evaluated in a 32-bit type under wraparound, the normal-form values
`a = (65536, 1)` and `b = (1, 65536)`, all of whose components are values of
the type, satisfy `a < b` although `val a > val b`: the product
`65536 * 65536` wraps to `0`. -/
theorem C18_comparison_overflow :
    ∃ a b : rational, NormalForm a ∧ NormalForm b ∧
      representable 32 a.m_num ∧ representable 32 a.m_den ∧
      representable 32 b.m_num ∧ representable 32 b.m_den ∧
      wrap 32 (a.m_num * b.m_den) = 0 ∧ wrap 32 (b.m_num * a.m_den) = 1 ∧
      operator_lt_w 32 a b = true ∧ operator_lt a b = false ∧ val b < val a := by
  refine ⟨{ m_num := 65536, m_den := 1 }, { m_num := 1, m_den := 65536 },
    by decide, by decide, by decide, by decide, by decide, by decide, by decide, by decide,
    by decide, by decide, ?_⟩
  norm_num [val]

/-- Claim C20. Overflow can break denominator positivity: with the products
handed to the pair constructor reduced modulo `2 ^ w`, the normal-form value
`a = b = (1, 16)` over an 8-bit type has `a * b` and `a + b` stored as
`(0, 0)`, because `16 * 16 = 256` wraps to `0`; likewise `(1, 65536)` over a
32-bit type. -/
theorem C20_overflow_zero_denominator :
    (∃ a b : rational, NormalForm a ∧ NormalForm b ∧
      representable 8 a.m_num ∧ representable 8 a.m_den ∧
      representable 8 b.m_num ∧ representable 8 b.m_den ∧
      a.m_den ≠ 0 ∧ b.m_den ≠ 0 ∧ wrap 8 (a.m_den * b.m_den) = 0 ∧
      (∃ r, operator_times_w 8 a b = some r ∧ r = { m_num := 0, m_den := 0 } ∧
        ¬ 1 ≤ r.m_den ∧ ¬ NormalForm r) ∧
      (∃ r, operator_plus_w 8 a b = some r ∧ r = { m_num := 0, m_den := 0 } ∧
        ¬ 1 ≤ r.m_den ∧ ¬ NormalForm r)) ∧
    (∃ a b : rational, NormalForm a ∧ NormalForm b ∧
      representable 32 a.m_num ∧ representable 32 a.m_den ∧
      representable 32 b.m_num ∧ representable 32 b.m_den ∧
      (∃ r, operator_times_w 32 a b = some r ∧ r.m_den = 0) ∧
      (∃ r, operator_plus_w 32 a b = some r ∧ r.m_den = 0)) := by
  constructor
  · exact ⟨{ m_num := 1, m_den := 16 }, { m_num := 1, m_den := 16 },
      by decide, by decide, by decide, by decide, by decide, by decide, by decide, by decide,
      by decide, ⟨{ m_num := 0, m_den := 0 }, by decide, rfl, by decide, by decide⟩,
      ⟨{ m_num := 0, m_den := 0 }, by decide, rfl, by decide, by decide⟩⟩
  · exact ⟨{ m_num := 1, m_den := 65536 }, { m_num := 1, m_den := 65536 },
      by decide, by decide, by decide, by decide, by decide, by decide,
      ⟨{ m_num := 0, m_den := 0 }, by decide, rfl⟩,
      ⟨{ m_num := 0, m_den := 0 }, by decide, rfl⟩⟩

end LibRational
